import Mathlib

/-!
Verification of the `USPPCIEPHY` adapter
(`litex_on_profpga_systems/pcie/usppciephy.py`) against its
natural-language specification.

The file shallowly embeds the parts of the source the claims depend on:
the `convert_size` lookup, the MSI clock-domain crossing selection, the
construction-time configuration asserts, the `Cat`-composed 16-bit id,
the `MultiReg` status relays, the four TX/RX width-conversion datapaths
and their endpoint wiring, and the `tuser`/`tlast` boundary-flag wiring.
Machine integers are modelled as `Nat` with explicit `%` where widths
matter.  The width-conversion datapaths (`PHYTXDatapath`/`PHYRXDatapath`)
and the `MultiReg` internals live in external libraries, not in this
repository's sources, so those parts are modelled from the spec and are
marked as such in their doc comments.
-/

namespace UspPciePhy

/-! ## SizeCodeTable (`convert_size`, source lines 117-123) -/

/-- Value sequence of the `convert_size` loop: `value` starts at `128`
and each iteration stores `value` for code `i` and then updates
`value = min(value*2, max_size)`. -/
def convertSizeValue (max_size : Nat) : Nat → Nat
  | 0 => 128
  | i + 1 => min (convertSizeValue max_size i * 2) max_size

/-- Mirrors `convert_size(command, size, max_size)`: a `Case` statement
assigning `size` for command codes `0..5`; any other code (the 3-bit
command can reach `6` or `7`) has no case, so `size` keeps its old
value. -/
def convert_size (max_size command old : Nat) : Nat :=
  if command < 6 then convertSizeValue max_size command else old

/-- Source line 137: `convert_size(cfg_max_read_req, self.max_request_size, max_size=512)`. -/
def nextMaxRequestSize (cfg_max_read_req old : Nat) : Nat :=
  convert_size 512 cfg_max_read_req old

/-- Source line 138: `convert_size(cfg_max_payload_size, self.max_payload_size, max_size=512)`. -/
def nextMaxPayloadSize (cfg_max_payload_size old : Nat) : Nat :=
  convert_size 512 cfg_max_payload_size old

/-! ## MSI clock-domain crossing (source lines 107-114) -/

/-- How the MSI stream reaches the hard IP: either directly (`cfg_msi =
self.msi`) or through an `AsyncFIFO` of a given depth whose `write`
domain and `read` domain are renamed as recorded. -/
inductive MsiPath where
  | direct : MsiPath
  | asyncFifo (depth : Nat) (writeDomain readDomain : String) : MsiPath
deriving DecidableEq, Repr

/-- Mirrors the MSI CDC selection: when `cd == "pcie"` the stream is used
directly; otherwise `stream.AsyncFIFO(msi_layout(), 4)` is instantiated
with `ClockDomainsRenamer({"write": cd, "read": "pcie"})`. -/
def msiConnect (cd : String) : MsiPath :=
  if cd = "pcie" then MsiPath.direct else MsiPath.asyncFifo 4 cd "pcie"

/-! ## Construction-time configuration checks (source lines 36, 54-57) -/

/-- Mirrors the parameter handling and the four `assert` statements of
`USPPCIEPHY.__init__`: `pcie_data_width` defaults to `data_width` when
not supplied (line 36), then `speed`, `nlanes`, `data_width` and
`pcie_data_width` are checked in order; the first failing `assert`
raises, and the raised error pinpoints the offending parameter (the
failing assert's source line names exactly one parameter). -/
def usppciephyCheck (speed : String) (nlanes data_width : Nat)
    (pcie_data_width_opt : Option Nat) : Except String Unit :=
  let pcie_data_width := pcie_data_width_opt.getD data_width
  if speed ∉ (["gen2", "gen3", "gen4"] : List String) then Except.error "speed"
  else if nlanes ∉ ([1, 2, 4, 8, 16] : List Nat) then Except.error "nlanes"
  else if data_width ∉ ([64, 128, 256, 512] : List Nat) then Except.error "data_width"
  else if pcie_data_width ∉ ([64, 128, 256, 512] : List Nat) then Except.error "pcie_data_width"
  else Except.ok ()

/-- Source line 36: `if pcie_data_width is None: pcie_data_width = data_width`. -/
def resolvePcieDataWidth (data_width : Nat) (pcie_data_width_opt : Option Nat) : Nat :=
  pcie_data_width_opt.getD data_width

/-! ## IdentityTag (source line 139) -/

/-- Mirrors `self.id.eq(Cat(function_number, device_number, bus_number))`:
migen `Cat` is LSB-first, so the 3-bit function number occupies bits
`[0:3]`, the 5-bit device number bits `[3:8]` and the 8-bit bus number
bits `[8:16]`; each operand is truncated to its declared signal width. -/
def idCompose (function_number device_number bus_number : Nat) : Nat :=
  function_number % 8 + device_number % 32 * 8 + bus_number % 256 * 256

/-! ## Status relays (`MultiReg`, source lines 141-147) -/

/-- Modelled from the spec: the `MultiReg` synchronizing relay (migen
library code, not in this repository's sources) is a chain of two
sequential capture stages clocked by the reading domain; `reg0` is the
stage fed by the input, `reg1` the stage exposed to the reader. -/
structure MultiReg (α : Type) where
  reg0 : α
  reg1 : α
deriving DecidableEq, Repr

/-- One clock step of the reading domain: each stage captures its
predecessor, the first stage captures the input. -/
def multiRegStep (s : MultiReg α) (input : α) : MultiReg α :=
  ⟨input, s.reg0⟩

/-- State after `n` steps, the input at step `m` being `input m`. -/
def multiRegRun (input : Nat → α) (s : MultiReg α) : Nat → MultiReg α
  | 0 => s
  | n + 1 => multiRegStep (multiRegRun input s n) (input n)

/-- The value the reading domain observes. -/
def multiRegOut (s : MultiReg α) : α := s.reg1

/-- Source lines 141-147: the five status scalars relayed through
`MultiReg` into read-only `CSRStatus` registers, each with the default
two capture stages. -/
def statusRelays : List (String × Nat) :=
  [("link_up", 2), ("bus_master_enable", 2), ("msi_enable", 2),
   ("max_request_size", 2), ("max_payload_size", 2)]

/-! ## Bus-mastering status exposure (source lines 31, 143) -/

/-- Mirrors `MultiReg(cfg_function_status, self._bus_master_enable.status)`
(line 143): `_bus_master_enable` is a default-width (1-bit) `CSRStatus`
(line 31), so the final combinational assignment truncates the 16-bit
`cfg_function_status` word to its least-significant bit. -/
def busMasterEnableStatus (cfg_function_status : Nat) : Nat :=
  cfg_function_status % 2

/-- Modelled from the external device interface (not in this repository's
sources): in the UltraScale+ integrated PCIe block's
`cfg_function_status` word each function owns four bits, and for
function 0 bit 0 is I/O Space Enable, bit 1 Memory Space Enable, bit 2
Bus Master Enable, bit 3 INTx Disable; bus mastering is enabled in the
word exactly when bit 2 is set. -/
def busMasterEnableBit (cfg_function_status : Nat) : Nat :=
  cfg_function_status / 4 % 2

/-! ## The four width-conversion datapaths (source lines 77-104) -/

/-- Direction of a datapath: `tx` (FPGA to host, `PHYTXDatapath`) or
`rx` (host to FPGA, `PHYRXDatapath`). -/
inductive DatapathDirection where
  | tx : DatapathDirection
  | rx : DatapathDirection
deriving DecidableEq, Repr, BEq

/-- One instantiated datapath: its name, direction, the unit width of
its `sink` and `source`, the endpoint its sink is fed from and the
endpoint its source drives.  A `PHYTXDatapath(core_data_width,
pcie_data_width, clock_domain)` has its sink at the core width and its
source at the pcie width; a `PHYRXDatapath` the reverse (litepcie
library code, widths as described by the spec's egress/ingress
contract). -/
structure DatapathInst where
  name : String
  direction : DatapathDirection
  sinkWidth : Nat
  sourceWidth : Nat
  fedFrom : String
  drives : String
deriving DecidableEq, Repr

/-- Source lines 77-104: the four datapaths instantiated by
`USPPCIEPHY.__init__` with their endpoint connections
(`cmp_sink -> cc_datapath`, `req_sink -> rq_datapath`,
`cq_datapath -> req_source`, `rc_datapath -> cmp_source`). -/
def phyDatapaths (data_width pcie_data_width : Nat) : List DatapathInst :=
  [⟨"cc_datapath", DatapathDirection.tx, data_width, pcie_data_width, "cmp_sink", "s_axis_cc"⟩,
   ⟨"rq_datapath", DatapathDirection.tx, data_width, pcie_data_width, "req_sink", "s_axis_rq"⟩,
   ⟨"cq_datapath", DatapathDirection.rx, pcie_data_width, data_width, "m_axis_cq", "req_source"⟩,
   ⟨"rc_datapath", DatapathDirection.rx, pcie_data_width, data_width, "m_axis_rc", "cmp_source"⟩]

/-! ## Ingress boundary-flag wiring (source lines 156-159, 320-325) -/

/-- Bit `i` of `x`, as migen's `x[i]` bit-select. -/
def bitSel (x i : Nat) : Nat := x / 2 ^ i % 2

/-- The `first`/`last` pair presented to an ingress (RX) datapath sink. -/
structure IngressFlags where
  first : Nat
  last : Bool
deriving DecidableEq, Repr

/-- Source lines 320-322: `m_axis_cq.first.eq(m_axis_cq_tuser[14])` and
`m_axis_cq.last.eq(m_axis_cq_tlast)`. -/
def cqIngressFlags (m_axis_cq_tuser : Nat) (m_axis_cq_tlast : Bool) : IngressFlags :=
  ⟨bitSel m_axis_cq_tuser 14, m_axis_cq_tlast⟩

/-- Source lines 323-324: `m_axis_rc.first.eq(m_axis_rc_tuser[14])` and
`m_axis_rc.last.eq(m_axis_rc_tlast)`. -/
def rcIngressFlags (m_axis_rc_tuser : Nat) (m_axis_rc_tlast : Bool) : IngressFlags :=
  ⟨bitSel m_axis_rc_tuser 14, m_axis_rc_tlast⟩

/-! ## WidthAdapter (spec section 4.1; the `PHYTXDatapath`/`PHYRXDatapath`
instances of source lines 77-104 are litepcie library code, so the
conversion itself is modelled from the spec) -/

/-- One transfer unit of a FrameStream.  `bytes` is the ordered list of
valid bytes the unit carries (the byte-validity mask marks exactly these
bytes, a prefix of the unit's width, as valid — spec section 3 requires
interior units to be full and only the final unit to have a partial,
trailing-invalid mask); `first`/`last` are the frame-boundary flags. -/
structure StreamUnit where
  bytes : List Nat
  first : Bool
  last : Bool
deriving DecidableEq, Repr

/-- Modelled from the spec (wide-to-narrow rule, section 4.1): split a
unit's valid bytes into sub-units of width `w` in byte order; `is_first`
propagates only to the first sub-unit, `is_last` only to the sub-unit
containing the final valid byte; positions beyond the last valid byte
are not emitted.  `f`/`l` are the flags still to be placed. -/
def narrowUnitAux (w : Nat) (f l : Bool) (bs : List Nat) : List StreamUnit :=
  if h : bs = [] ∨ w = 0 then []
  else if bs.length ≤ w then [⟨bs, f, l⟩]
  else ⟨bs.take w, f, false⟩ :: narrowUnitAux w false l (bs.drop w)
termination_by bs.length
decreasing_by
  have h1 : bs ≠ [] := fun hh => h (Or.inl hh)
  have h2 : w ≠ 0 := fun hh => h (Or.inr hh)
  have h3 : 0 < bs.length := List.length_pos.mpr h1
  simp only [List.length_drop]
  omega

/-- Split one input unit at output width `w`. -/
def narrowUnit (w : Nat) (u : StreamUnit) : List StreamUnit :=
  narrowUnitAux w u.first u.last u.bytes

/-- Modelled from the spec: the wide-to-narrow direction applied
unit-by-unit to a frame. -/
def narrowFrame (w : Nat) : List StreamUnit → List StreamUnit
  | [] => []
  | u :: us => narrowUnit w u ++ narrowFrame w us

/-- Modelled from the spec (narrow-to-wide rule, section 4.1):
accumulate successive input units into a wide output unit until it is
full (`wout` bytes) or an `is_last` input unit is seen; emit only then.
The emitted unit's validity mask covers exactly the bytes actually
supplied (`acc`); `is_first` is set on the output unit containing the
first input unit of the frame (tracked by `hf`). -/
def widenAux (wout : Nat) (acc : List Nat) (hf : Bool) : List StreamUnit → List StreamUnit
  | [] => []
  | u :: us =>
    if u.last then ⟨acc ++ u.bytes, hf || u.first, true⟩ :: widenAux wout [] false us
    else if wout ≤ (acc ++ u.bytes).length then
      ⟨acc ++ u.bytes, hf || u.first, false⟩ :: widenAux wout [] false us
    else widenAux wout (acc ++ u.bytes) (hf || u.first) us

/-- Modelled from the spec: the narrow-to-wide direction on a frame,
starting with an empty accumulator. -/
def widenFrame (wout : Nat) (F : List StreamUnit) : List StreamUnit :=
  widenAux wout [] false F

/-- Modelled from the spec: a width adapter from unit width `win` to
unit width `wout` — pass-through when equal, accumulation when widening,
splitting when narrowing. -/
def convert (win wout : Nat) (F : List StreamUnit) : List StreamUnit :=
  if win = wout then F
  else if win < wout then widenFrame wout F
  else narrowFrame wout F

/-- The ordered byte content of a frame (concatenation of the valid
bytes of its units). -/
def frameBytes : List StreamUnit → List Nat
  | [] => []
  | u :: us => u.bytes ++ frameBytes us

/-- Spec section 3 frame invariant, generalized over the `first` flag
`f` expected on the head unit: the frame is nonempty, exactly the head
unit carries `first = f` (`false` below the head), exactly the final
unit carries `last = true`, interior units are full (`w` valid bytes)
and the final unit carries between `1` and `w` valid bytes. -/
def WFfrom (w : Nat) (f : Bool) : List StreamUnit → Prop
  | [] => False
  | [u] => u.first = f ∧ u.last = true ∧ 0 < u.bytes.length ∧ u.bytes.length ≤ w
  | u :: v :: us => u.first = f ∧ u.last = false ∧ u.bytes.length = w ∧ WFfrom w false (v :: us)

/-- A well-formed frame at unit width `w` (spec section 3). -/
def WellFormed (w : Nat) (F : List StreamUnit) : Prop := WFfrom w true F

/-- Canonical unitization of a byte sequence at width `w`: full units
with `first` only on the head and `last` only on the final, possibly
partial, unit. -/
def toUnits (w : Nat) (bs : List Nat) : List StreamUnit :=
  narrowUnitAux w true true bs

/-! ## Width-adapter lemmas -/

theorem narrowUnitAux_small (w : Nat) (f l : Bool) (bs : List Nat)
    (h1 : bs ≠ []) (h2 : 0 < w) (h3 : bs.length ≤ w) :
    narrowUnitAux w f l bs = [⟨bs, f, l⟩] := by
  have h2' : w ≠ 0 := by omega
  rw [narrowUnitAux]
  simp [h1, h2', h3]

theorem narrowUnitAux_big (w : Nat) (f l : Bool) (bs : List Nat)
    (h2 : 0 < w) (h3 : w < bs.length) :
    narrowUnitAux w f l bs
      = ⟨bs.take w, f, false⟩ :: narrowUnitAux w false l (bs.drop w) := by
  have h1 : bs ≠ [] := by
    intro hh
    subst hh
    simp at h3
  have h2' : w ≠ 0 := by omega
  rw [narrowUnitAux]
  simp [h1, h2', Nat.not_le.mpr h3]

theorem narrowUnitAux_append (w : Nat) (hw : 0 < w) (f l : Bool) (c rest : List Nat)
    (hc : c ≠ []) (hdvd : w ∣ c.length) (hrest : rest ≠ []) :
    narrowUnitAux w f l (c ++ rest)
      = narrowUnitAux w f false c ++ narrowUnitAux w false l rest := by
  have hcpos : 0 < c.length := List.length_pos.mpr hc
  have hcw : w ≤ c.length := Nat.le_of_dvd hcpos hdvd
  have hrpos : 0 < rest.length := List.length_pos.mpr hrest
  by_cases heq : c.length = w
  · have hbig : w < (c ++ rest).length := by
      simp only [List.length_append]
      omega
    rw [narrowUnitAux_big w f l (c ++ rest) hw hbig,
        narrowUnitAux_small w f false c hc hw (le_of_eq heq)]
    have ht : (c ++ rest).take w = c := by
      rw [← heq]
      exact List.take_left c rest
    have hd : (c ++ rest).drop w = rest := by
      rw [← heq]
      exact List.drop_left c rest
    rw [ht, hd]
    rfl
  · have hlt : w < c.length := by omega
    have hbig : w < (c ++ rest).length := by
      simp only [List.length_append]
      omega
    rw [narrowUnitAux_big w f l (c ++ rest) hw hbig,
        narrowUnitAux_big w f false c hw hlt]
    have ht : (c ++ rest).take w = c.take w :=
      List.take_append_of_le_length (le_of_lt hlt)
    have hd : (c ++ rest).drop w = c.drop w ++ rest :=
      List.drop_append_of_le_length (le_of_lt hlt)
    have hdc : c.drop w ≠ [] := by
      have : 0 < (c.drop w).length := by
        simp only [List.length_drop]
        omega
      exact List.ne_nil_of_length_pos this
    have hdvd' : w ∣ (c.drop w).length := by
      simp only [List.length_drop]
      exact Nat.dvd_sub' hdvd dvd_rfl
    rw [ht, hd, narrowUnitAux_append w hw false l (c.drop w) rest hdc hdvd' hrest]
    rfl
termination_by c.length
decreasing_by
  simp only [List.length_drop]
  omega

theorem narrowFrame_toUnits (win wout : Nat) (h1 : 0 < win) (h2 : 0 < wout)
    (hdvd : wout ∣ win) (f : Bool) (bs : List Nat) (hbs : bs ≠ []) :
    narrowFrame wout (narrowUnitAux win f true bs) = narrowUnitAux wout f true bs := by
  by_cases hle : bs.length ≤ win
  · rw [narrowUnitAux_small win f true bs hbs h1 hle]
    show narrowUnit wout ⟨bs, f, true⟩ ++ narrowFrame wout [] = _
    simp [narrowFrame, narrowUnit]
  · have hlt : win < bs.length := by omega
    have hdne : bs.drop win ≠ [] := by
      have : 0 < (bs.drop win).length := by
        simp only [List.length_drop]
        omega
      exact List.ne_nil_of_length_pos this
    have htne : bs.take win ≠ [] := by
      have : 0 < (bs.take win).length := by
        simp only [List.length_take]
        omega
      exact List.ne_nil_of_length_pos this
    have htdvd : wout ∣ (bs.take win).length := by
      have hl : (bs.take win).length = win := by
        simp only [List.length_take]
        omega
      rw [hl]
      exact hdvd
    rw [narrowUnitAux_big win f true bs h1 hlt]
    show narrowUnit wout ⟨bs.take win, f, false⟩
        ++ narrowFrame wout (narrowUnitAux win false true (bs.drop win)) = _
    rw [narrowFrame_toUnits win wout h1 h2 hdvd false (bs.drop win) hdne]
    show narrowUnitAux wout f false (bs.take win)
        ++ narrowUnitAux wout false true (bs.drop win) = _
    rw [← narrowUnitAux_append wout h2 f true (bs.take win) (bs.drop win) htne htdvd hdne,
        List.take_append_drop]
termination_by bs.length
decreasing_by
  simp only [List.length_drop]
  omega

theorem widenAux_cons_last (wout : Nat) (acc : List Nat) (hf : Bool)
    (u : StreamUnit) (us : List StreamUnit) (h : u.last = true) :
    widenAux wout acc hf (u :: us)
      = ⟨acc ++ u.bytes, hf || u.first, true⟩ :: widenAux wout [] false us := by
  simp [widenAux, h]

theorem widenAux_cons_emit (wout : Nat) (acc : List Nat) (hf : Bool)
    (u : StreamUnit) (us : List StreamUnit) (h : u.last = false)
    (h2 : wout ≤ acc.length + u.bytes.length) :
    widenAux wout acc hf (u :: us)
      = ⟨acc ++ u.bytes, hf || u.first, false⟩ :: widenAux wout [] false us := by
  simp [widenAux, h, List.length_append, h2]

theorem widenAux_cons_acc (wout : Nat) (acc : List Nat) (hf : Bool)
    (u : StreamUnit) (us : List StreamUnit) (h : u.last = false)
    (h2 : acc.length + u.bytes.length < wout) :
    widenAux wout acc hf (u :: us)
      = widenAux wout (acc ++ u.bytes) (hf || u.first) us := by
  simp [widenAux, h, List.length_append, Nat.not_le.mpr h2]

theorem widenAux_toUnits (win wout : Nat) (h1 : 0 < win) (hdvd : win ∣ wout)
    (acc : List Nat) (hacc : win ∣ acc.length) (hlen : acc.length + win ≤ wout)
    (hf f : Bool) (bs : List Nat) (hbs : bs ≠ []) :
    widenAux wout acc hf (narrowUnitAux win f true bs)
      = narrowUnitAux wout (hf || f) true (acc ++ bs) := by
  have h2 : 0 < wout := by omega
  by_cases hle : bs.length ≤ win
  · rw [narrowUnitAux_small win f true bs hbs h1 hle,
        widenAux_cons_last wout acc hf ⟨bs, f, true⟩ [] rfl,
        narrowUnitAux_small wout (hf || f) true (acc ++ bs)
          (by simp [hbs]) h2 (by simp only [List.length_append]; omega)]
    rfl
  · have hlt : win < bs.length := by omega
    have hdne : bs.drop win ≠ [] := by
      have : 0 < (bs.drop win).length := by
        simp only [List.length_drop]
        omega
      exact List.ne_nil_of_length_pos this
    have hlen_take : (bs.take win).length = win := by
      simp only [List.length_take]
      omega
    rw [narrowUnitAux_big win f true bs h1 hlt]
    by_cases hemit : wout ≤ acc.length + win
    · have heq : wout = acc.length + win := by omega
      rw [widenAux_cons_emit wout acc hf ⟨bs.take win, f, false⟩ _ rfl
            (by simp only [hlen_take]; omega),
          widenAux_toUnits win wout h1 hdvd [] (by simp)
            (by simp only [List.length_nil]; omega)
            false false (bs.drop win) hdne,
          narrowUnitAux_big wout (hf || f) true (acc ++ bs) h2
            (by simp only [List.length_append]; omega)]
      have ht : (acc ++ bs).take wout = acc ++ bs.take win := by
        rw [List.take_append_eq_append_take, List.take_of_length_le (by omega), heq]
        simp
      have hd : (acc ++ bs).drop wout = bs.drop win := by
        rw [List.drop_append_eq_append_drop, List.drop_eq_nil_of_le (by omega), heq]
        simp
      rw [ht, hd]
      simp
    · have hacc2 : win ∣ (acc ++ bs.take win).length := by
        simp only [List.length_append, hlen_take]
        exact Nat.dvd_add hacc dvd_rfl
      have hlen2 : (acc ++ bs.take win).length + win ≤ wout := by
        obtain ⟨a, ha⟩ := hacc
        obtain ⟨b, hb⟩ := hdvd
        simp only [List.length_append, hlen_take, ha] at *
        have hab : a + 1 < b := by
          have hmul : win * (a + 1) < win * b := by
            rw [Nat.mul_add, Nat.mul_one]
            omega
          exact Nat.lt_of_mul_lt_mul_left hmul
        have : win * (a + 2) ≤ win * b := Nat.mul_le_mul_left win (by omega)
        rw [hb]
        rw [Nat.mul_add] at this
        omega
      rw [widenAux_cons_acc wout acc hf ⟨bs.take win, f, false⟩ _ rfl
            (by simp only [hlen_take]; omega),
          widenAux_toUnits win wout h1 hdvd (acc ++ bs.take win) hacc2 hlen2
            (hf || f) false (bs.drop win) hdne]
      rw [List.append_assoc, List.take_append_drop]
      simp
termination_by bs.length
decreasing_by
  all_goals simp only [List.length_drop]
  all_goals omega

theorem supported_pos {a : Nat} (h : a = 64 ∨ a = 128 ∨ a = 256 ∨ a = 512) : 0 < a := by
  rcases h with rfl | rfl | rfl | rfl <;> omega

theorem supported_dvd {a b : Nat} (ha : a = 64 ∨ a = 128 ∨ a = 256 ∨ a = 512)
    (hb : b = 64 ∨ b = 128 ∨ b = 256 ∨ b = 512) (h : a < b) : a ∣ b := by
  rcases ha with rfl | rfl | rfl | rfl <;> rcases hb with rfl | rfl | rfl | rfl <;>
    first
      | exact absurd h (by omega)
      | exact ⟨2, rfl⟩
      | exact ⟨4, rfl⟩
      | exact ⟨8, rfl⟩

theorem convert_toUnits (win wout : Nat)
    (hwin : win = 64 ∨ win = 128 ∨ win = 256 ∨ win = 512)
    (hwout : wout = 64 ∨ wout = 128 ∨ wout = 256 ∨ wout = 512)
    (bs : List Nat) (hbs : bs ≠ []) :
    convert win wout (toUnits win bs) = toUnits wout bs := by
  have hwin0 : 0 < win := supported_pos hwin
  have hwout0 : 0 < wout := supported_pos hwout
  unfold convert toUnits
  by_cases he : win = wout
  · subst he
    simp
  · rw [if_neg he]
    by_cases hlt : win < wout
    · rw [if_pos hlt]
      have hdvd : win ∣ wout := supported_dvd hwin hwout hlt
      have hwle : win ≤ wout := Nat.le_of_dvd hwout0 hdvd
      unfold widenFrame
      have := widenAux_toUnits win wout hwin0 hdvd [] (by simp) (by simpa using hwle)
        false true bs hbs
      simpa using this
    · rw [if_neg hlt]
      have hgt : wout < win := by omega
      have hdvd : wout ∣ win := supported_dvd hwout hwin hgt
      exact narrowFrame_toUnits win wout hwin0 hwout0 hdvd true bs hbs

theorem wf_frameBytes_pos (w : Nat) (f : Bool) (F : List StreamUnit)
    (hw : 0 < w) (h : WFfrom w f F) : 0 < (frameBytes F).length := by
  match F, h with
  | [u], h =>
    have h3 := h.2.2.1
    simp only [frameBytes, List.append_nil]
    exact h3
  | u :: v :: us, h =>
    have h3 := h.2.2.1
    simp only [frameBytes, List.length_append]
    omega

theorem wf_eq_toUnits (w : Nat) (hw : 0 < w) (f : Bool) (F : List StreamUnit)
    (h : WFfrom w f F) : F = narrowUnitAux w f true (frameBytes F) := by
  match F, h with
  | [u], h =>
    obtain ⟨h1, h2, h3, h4⟩ := h
    have hb : frameBytes [u] = u.bytes := by
      simp [frameBytes]
    rw [hb, narrowUnitAux_small w f true u.bytes (List.ne_nil_of_length_pos h3) hw h4]
    cases u
    simp_all
  | u :: v :: us, h =>
    obtain ⟨h1, h2, h3, h4⟩ := h
    have hpos : 0 < (frameBytes (v :: us)).length := wf_frameBytes_pos w false (v :: us) hw h4
    have hb : frameBytes (u :: v :: us) = u.bytes ++ frameBytes (v :: us) := rfl
    rw [hb, narrowUnitAux_big w f true _ hw
          (by simp only [List.length_append]; omega)]
    have ht : (u.bytes ++ frameBytes (v :: us)).take w = u.bytes := by
      rw [← h3]
      exact List.take_left _ _
    have hd : (u.bytes ++ frameBytes (v :: us)).drop w = frameBytes (v :: us) := by
      rw [← h3]
      exact List.drop_left _ _
    rw [ht, hd, ← wf_eq_toUnits w hw false (v :: us) h4]
    cases u
    simp_all

/-! ## Claim theorems -/

/-- Claim C1: for every size-class code `c` in `0..5`, the negotiated size
computed for both limits (max request size and max payload size) with
ceiling `512` equals the table `{128, 256, 512, 512, 512, 512}`; the value
satisfies `size(0) = 128` and `size(i) = min(size(i-1) * 2, 512)`, and the
same mapping with the same ceiling is applied to both codes. -/
theorem convert_size_table (c old : Nat) (hc : c ≤ 5) :
    nextMaxRequestSize c old = [128, 256, 512, 512, 512, 512].getD c 0 ∧
    nextMaxPayloadSize c old = [128, 256, 512, 512, 512, 512].getD c 0 ∧
    convertSizeValue 512 0 = 128 ∧
    (∀ i, convertSizeValue 512 (i + 1) = min (convertSizeValue 512 i * 2) 512) ∧
    nextMaxRequestSize c old = nextMaxPayloadSize c old := by
  refine ⟨?_, ?_, rfl, fun i => rfl, rfl⟩ <;>
    · interval_cases c <;> rfl

/-- Witness for C1 at code `3`. -/
theorem convert_size_table_witness :
    (3 : Nat) ≤ 5 ∧ nextMaxRequestSize 3 0 = [128, 256, 512, 512, 512, 512].getD 3 0 :=
  ⟨by decide, (convert_size_table 3 0 (by decide)).1⟩

/-- Claim C2: for every well-formed frame and every width pair drawn from
the supported widths `{64, 128, 256, 512}`, converting from `win` to
`wout` and then back from `wout` to `win` reproduces the frame's byte
content, byte-validity masks and `is_first`/`is_last` boundary flags
exactly. -/
theorem width_adapter_roundtrip (win wout : Nat)
    (hwin : win = 64 ∨ win = 128 ∨ win = 256 ∨ win = 512)
    (hwout : wout = 64 ∨ wout = 128 ∨ wout = 256 ∨ wout = 512)
    (F : List StreamUnit) (hF : WellFormed win F) :
    convert wout win (convert win wout F) = F := by
  have hwin0 : 0 < win := supported_pos hwin
  have hbs : frameBytes F ≠ [] :=
    List.ne_nil_of_length_pos (wf_frameBytes_pos win true F hwin0 hF)
  have hFe : F = toUnits win (frameBytes F) := wf_eq_toUnits win hwin0 true F hF
  conv_lhs => rw [hFe]
  rw [convert_toUnits win wout hwin hwout (frameBytes F) hbs,
      convert_toUnits wout win hwout hwin (frameBytes F) hbs, ← hFe]

/-- Witness for C2: the spec's edge case, a single-unit frame of three
valid bytes at width 64 converted to width 256 and back. -/
theorem width_adapter_roundtrip_witness :
    WellFormed 64 [⟨[1, 2, 3], true, true⟩] ∧
    convert 256 64 (convert 64 256 [⟨[1, 2, 3], true, true⟩])
      = [⟨[1, 2, 3], true, true⟩] := by
  have hWF : WellFormed 64 [⟨[1, 2, 3], true, true⟩] :=
    ⟨rfl, rfl, by decide, by decide⟩
  exact ⟨hWF, width_adapter_roundtrip 64 256 (Or.inl rfl) (Or.inr (Or.inr (Or.inl rfl)))
    [⟨[1, 2, 3], true, true⟩] hWF⟩

/-- Claim C3: if the application clock domain differs from the device
domain (`cd ≠ "pcie"`) the MSI stream crosses through an asynchronous
queue of capacity `4` (a power of two) written in the application domain
and read in the `"pcie"` domain; if `cd = "pcie"` no queue is
instantiated and the stream is passed through unchanged. -/
theorem msi_cdc_selection (cd : String) :
    (cd = "pcie" → msiConnect cd = MsiPath.direct) ∧
    (cd ≠ "pcie" → msiConnect cd = MsiPath.asyncFifo 4 cd "pcie" ∧ 4 = 2 ^ 2) := by
  constructor
  · intro h
    simp [msiConnect, h]
  · intro h
    exact ⟨by simp [msiConnect, h], rfl⟩

/-- Witness for C3 at `cd = "pcie"` (pass-through) and `cd = "sys"`
(queue of capacity 4). -/
theorem msi_cdc_selection_witness :
    msiConnect "pcie" = MsiPath.direct ∧
    (msiConnect "sys" = MsiPath.asyncFifo 4 "sys" "pcie" ∧ 4 = 2 ^ 2) :=
  ⟨(msi_cdc_selection "pcie").1 rfl, (msi_cdc_selection "sys").2 (by decide)⟩

/-- Claim C4: construction fails exactly when the configuration is
unsupported — speed not in `{gen2, gen3, gen4}`, lane count not in
`{1, 2, 4, 8, 16}`, application data width not in `{64, 128, 256, 512}`,
or external data width (after defaulting) not in `{64, 128, 256, 512}` —
and each failure names the offending parameter. -/
theorem construction_rejects_iff_unsupported (speed : String) (nlanes data_width : Nat)
    (pcie_data_width_opt : Option Nat) :
    (usppciephyCheck speed nlanes data_width pcie_data_width_opt = Except.ok () ↔
      (speed ∈ (["gen2", "gen3", "gen4"] : List String) ∧
       nlanes ∈ ([1, 2, 4, 8, 16] : List Nat) ∧
       data_width ∈ ([64, 128, 256, 512] : List Nat) ∧
       pcie_data_width_opt.getD data_width ∈ ([64, 128, 256, 512] : List Nat))) ∧
    (speed ∉ (["gen2", "gen3", "gen4"] : List String) →
      usppciephyCheck speed nlanes data_width pcie_data_width_opt = Except.error "speed") ∧
    (usppciephyCheck speed nlanes data_width pcie_data_width_opt ≠ Except.ok () →
      ∃ p, usppciephyCheck speed nlanes data_width pcie_data_width_opt = Except.error p ∧
        p ∈ (["speed", "nlanes", "data_width", "pcie_data_width"] : List String)) := by
  unfold usppciephyCheck
  refine ⟨?_, ?_, ?_⟩
  · constructor
    · intro h
      by_cases h1 : speed ∈ (["gen2", "gen3", "gen4"] : List String) <;>
        by_cases h2 : nlanes ∈ ([1, 2, 4, 8, 16] : List Nat) <;>
        by_cases h3 : data_width ∈ ([64, 128, 256, 512] : List Nat) <;>
        by_cases h4 : pcie_data_width_opt.getD data_width ∈ ([64, 128, 256, 512] : List Nat) <;>
        simp_all
    · rintro ⟨h1, h2, h3, h4⟩
      simp [h1, h2, h3, h4]
  · intro h
    simp [h]
  · intro h
    by_cases h1 : speed ∈ (["gen2", "gen3", "gen4"] : List String) <;>
      by_cases h2 : nlanes ∈ ([1, 2, 4, 8, 16] : List Nat) <;>
      by_cases h3 : data_width ∈ ([64, 128, 256, 512] : List Nat) <;>
      by_cases h4 : pcie_data_width_opt.getD data_width ∈ ([64, 128, 256, 512] : List Nat) <;>
      simp_all

/-- Witness for C4: a valid configuration is accepted, an unsupported
speed is rejected with the offending parameter named. -/
theorem construction_rejects_iff_unsupported_witness :
    usppciephyCheck "gen3" 4 128 (some 256) = Except.ok () ∧
    usppciephyCheck "gen5" 4 128 (some 256) = Except.error "speed" :=
  ⟨(construction_rejects_iff_unsupported "gen3" 4 128 (some 256)).1.mpr
      (by refine ⟨?_, ?_, ?_, ?_⟩ <;> decide),
   (construction_rejects_iff_unsupported "gen5" 4 128 (some 256)).2.1 (by decide)⟩

/-- Claim C5: the 16-bit identity tag is the concatenation of the 3-bit
function number (bits `[0:3]`), the 5-bit device number (bits `[3:8]`)
and the 8-bit bus number (bits `[8:16]`); changing exactly one sub-field
leaves the bit positions of the other two sub-fields unchanged. -/
theorem id_tag_fields (f g d e b c : Nat) :
    idCompose f d b < 2 ^ 16 ∧
    idCompose f d b % 8 = f % 8 ∧
    idCompose f d b / 8 % 32 = d % 32 ∧
    idCompose f d b / 256 % 256 = b % 256 ∧
    (idCompose g d b / 8 % 32 = idCompose f d b / 8 % 32 ∧
     idCompose g d b / 256 % 256 = idCompose f d b / 256 % 256) ∧
    (idCompose f e b % 8 = idCompose f d b % 8 ∧
     idCompose f e b / 256 % 256 = idCompose f d b / 256 % 256) ∧
    (idCompose f d c % 8 = idCompose f d b % 8 ∧
     idCompose f d c / 8 % 32 = idCompose f d b / 8 % 32) := by
  unfold idCompose
  refine ⟨?_, ?_, ?_, ?_, ⟨?_, ?_⟩, ⟨?_, ?_⟩, ⟨?_, ?_⟩⟩ <;> omega

/-- Claim C6: each of the five status scalars exposed to the application
domain (link-up, bus-mastering, MSI-enable, max request size, max
payload size) passes through a relay of two (hence at least two)
sequential capture stages clocked by the reading domain; a value held
stable by the writer from step `t` on is observed in the reading domain
at every step `n ≥ t + 2`, and the observed value is never an
intermediate bit-pattern (at any step `n ≥ 2` the output is exactly the
writer's value of step `n - 2`). -/
theorem status_relay_latency :
    statusRelays.length = 5 ∧ (∀ r ∈ statusRelays, 2 ≤ r.2) ∧
    (∀ (input : Nat → Nat) (s : MultiReg Nat) (n : Nat), 2 ≤ n →
      multiRegOut (multiRegRun input s n) = input (n - 2)) ∧
    (∀ (input : Nat → Nat) (s : MultiReg Nat) (v t : Nat),
      (∀ m, t ≤ m → input m = v) →
      ∀ n, t + 2 ≤ n → multiRegOut (multiRegRun input s n) = v) := by
  have key : ∀ (input : Nat → Nat) (s : MultiReg Nat) (n : Nat), 2 ≤ n →
      multiRegOut (multiRegRun input s n) = input (n - 2) := by
    intro input s n hn
    obtain ⟨m, rfl⟩ : ∃ m, n = m + 2 := ⟨n - 2, by omega⟩
    rfl
  refine ⟨rfl, by decide, key, ?_⟩
  intro input s v t hstable n hn
  rw [key input s n (by omega), hstable (n - 2) (by omega)]

/-- Witness for C6: a writer holding the value `7` from step `0` is
observed as `7` at step `5`. -/
theorem status_relay_latency_witness :
    multiRegOut (multiRegRun (fun _ => 7) ⟨0, 0⟩ 5) = 7 :=
  status_relay_latency.2.2.2 (fun _ => 7) ⟨0, 0⟩ 7 0 (fun _ _ => rfl) 5 (by omega)

/-- Claim C7 (code bug): the 1-bit `_bus_master_enable` CSR receives the
16-bit `cfg_function_status` word truncated to its least-significant
bit, which is the I/O Space Enable bit, not the Bus Master Enable bit
(bit 2).  At `cfg_function_status = 4` (bus mastering enabled, I/O space
disabled) the exposed scalar reads `0` although bus mastering is
enabled. -/
theorem bus_master_status_truncated :
    busMasterEnableStatus 4 = 0 ∧ busMasterEnableBit 4 = 1 ∧
    (∃ w, busMasterEnableStatus w ≠ busMasterEnableBit w) :=
  ⟨rfl, rfl, ⟨4, by decide⟩⟩

/-- Claim C8: exactly four width-conversion datapaths are instantiated:
two egress (`tx`) instances converting application width to external
width, fed from `cmp_sink` and `req_sink`, and two ingress (`rx`)
instances converting external width to application width, driving
`req_source` and `cmp_source`. -/
theorem four_datapaths (data_width pcie_data_width : Nat) :
    (phyDatapaths data_width pcie_data_width).length = 4 ∧
    ((phyDatapaths data_width pcie_data_width).filter
        (fun d => d.direction == DatapathDirection.tx)).map
        (fun d => (d.sinkWidth, d.sourceWidth, d.fedFrom))
      = [(data_width, pcie_data_width, "cmp_sink"),
         (data_width, pcie_data_width, "req_sink")] ∧
    ((phyDatapaths data_width pcie_data_width).filter
        (fun d => d.direction == DatapathDirection.rx)).map
        (fun d => (d.sinkWidth, d.sourceWidth, d.drives))
      = [(pcie_data_width, data_width, "req_source"),
         (pcie_data_width, data_width, "cmp_source")] := by
  refine ⟨rfl, ?_, ?_⟩ <;> rfl

/-- Claim C9: when `pcie_data_width` is not supplied it defaults to
`data_width`, so every instantiated datapath has equal sink and source
widths (the identity configuration). -/
theorem default_pcie_data_width_identity (data_width : Nat) :
    resolvePcieDataWidth data_width none = data_width ∧
    ((phyDatapaths data_width (resolvePcieDataWidth data_width none)).all
        (fun d => d.sinkWidth == d.sourceWidth)) = true := by
  refine ⟨rfl, ?_⟩
  simp [phyDatapaths, resolvePcieDataWidth, List.all]

/-- Claim C10: for both ingress streams the `is_first` flag presented to
the ingress datapath equals bit 14 of the device's 22-bit `tuser`
sideband and the `is_last` flag equals the device's `tlast`, on every
transfer. -/
theorem ingress_boundary_flags (tuser : Nat) (tlast : Bool) :
    (cqIngressFlags tuser tlast).first = (if tuser.testBit 14 then 1 else 0) ∧
    (cqIngressFlags tuser tlast).last = tlast ∧
    (rcIngressFlags tuser tlast).first = (if tuser.testBit 14 then 1 else 0) ∧
    (rcIngressFlags tuser tlast).last = tlast ∧
    rcIngressFlags tuser tlast = cqIngressFlags tuser tlast := by
  have hb : bitSel tuser 14 = if tuser.testBit 14 then 1 else 0 := by
    simp only [bitSel, Nat.testBit_to_div_mod, decide_eq_true_eq]
    split <;> omega
  exact ⟨hb, rfl, hb, rfl, rfl⟩

end UspPciePhy
